import Mathlib

set_option maxRecDepth 8000

/-!
Verification development for the SSE streaming chat client.

Text is modelled as `List Char` (the browser decodes bytes to JS strings;
we work at the decoded-text level).  The Frame Reassembler, Event
Interpreter and Transcript Reducer of the source are embedded as pure
Lean functions below, mirroring `processEvent`, `appendChunk` and the
`handleSubmit` read loop of the application source.
-/

/-- JavaScript whitespace class (`\s`, also used by `String.prototype.trim`). -/
def jsWs (c : Char) : Bool :=
  let n := c.toNat
  n == 32 || n == 9 || n == 10 || n == 13 || n == 11 || n == 12 ||
  n == 0xa0 || n == 0x1680 || (decide (0x2000 ≤ n) && decide (n ≤ 0x200a)) ||
  n == 0x2028 || n == 0x2029 || n == 0x202f || n == 0x205f ||
  n == 0x3000 || n == 0xfeff

/-- JavaScript `String.prototype.trim`: strip leading and trailing whitespace. -/
def jsTrim (l : List Char) : List Char :=
  ((l.dropWhile jsWs).reverse.dropWhile jsWs).reverse

/-- Prepend a character onto the first segment of a split result
(helper for the embedding of `String.prototype.split`). -/
def consSeg (c : Char) : List (List Char) → List (List Char)
  | [] => [[c]]
  | s :: ss => (c :: s) :: ss

/-- Embedding of `buffer.split('\n\n')`: leftmost, non-overlapping split on
the two-newline frame delimiter, keeping empty segments, never returning
an empty list (JS `split` with a non-empty separator). -/
def splitOnDelim : List Char → List (List Char)
  | [] => [[]]
  | [c] => [[c]]
  | c1 :: c2 :: rest =>
    if c1 = '\n' ∧ c2 = '\n' then
      [] :: splitOnDelim rest
    else
      consSeg c1 (splitOnDelim (c2 :: rest))

/-- Does a string contain the two-newline frame delimiter? -/
def hasDelim : List Char → Bool
  | [] => false
  | [_] => false
  | c1 :: c2 :: rest => (c1 = '\n' && c2 = '\n') || hasDelim (c2 :: rest)

/-- Join segments back together with the two-newline delimiter in between. -/
def joinWithDelim : List (List Char) → List Char
  | [] => []
  | [s] => s
  | s :: t :: rest => s ++ '\n' :: '\n' :: joinWithDelim (t :: rest)

/-- One arrival at the Frame Reassembler
(`buffer += chunk; segments = buffer.split('\n\n'); buffer = segments.pop()`):
emitted complete frames together with the new carryover buffer. -/
def feedChunk (buffer chunk : List Char) : List (List Char) × List Char :=
  let segments := splitOnDelim (buffer ++ chunk)
  (segments.dropLast, segments.getLastD [])

/-- Fold `feedChunk` over a whole fragmentation of the stream. -/
def feedAll (buffer : List Char) : List (List Char) → List (List Char) × List Char
  | [] => ([], buffer)
  | c :: rest =>
    let fc := feedChunk buffer c
    let fr := feedAll fc.2 rest
    (fc.1 ++ fr.1, fr.2)

/-- End-of-stream flush: the carryover becomes one final frame exactly when
it still holds non-whitespace content (`buffer.trim().length > 0`). -/
def eosFlush (buffer : List Char) : List (List Char) :=
  if 0 < (jsTrim buffer).length then [buffer] else []

/-- The complete ordered frame list the reassembler produces for a stream
delivered as the given chunks (including the end-of-stream flush). -/
def reassembleFrames (chunks : List (List Char)) : List (List Char) :=
  let fa := feedAll [] chunks
  fa.1 ++ eosFlush fa.2

/-! ### Transcript data model and event interpreter -/

inductive Role
  | user
  | assistant
deriving DecidableEq

structure Message where
  id : List Char
  role : Role
  content : List Char
  skipContext : Bool
deriving DecidableEq

/-- `appendChunk` from `handleSubmit`: functional update appending `value`
to the content of every message whose id equals the active assistant
message id, leaving all other messages untouched. -/
def appendChunk (aid value : List Char) (msgs : List Message) : List Message :=
  msgs.map fun m =>
    if m.id = aid then { m with content := m.content ++ value } else m

/-- One field of the parsed JSON payload as the interpreter observes it:
missing, a JSON string, or some non-string JSON value (carrying its JS
string coercion and its JS truthiness). -/
inductive JsonField
  | absent
  | str (s : List Char)
  | other (coerced : List Char) (truthy : Bool)
deriving DecidableEq

def JsonField.isStr : JsonField → Bool
  | .str _ => true
  | _ => false

def JsonField.strVal : JsonField → List Char
  | .str s => s
  | _ => []

/-- The `SsePayload` shape `\x7b event, content? \x7d`; the unchecked
`as SsePayload` cast in the source keeps whatever field values
`JSON.parse` produced. -/
structure SsePayload where
  event : JsonField
  content : JsonField
deriving DecidableEq

/-- Outcome of `JSON.parse` on a data line: a thrown `SyntaxError`
(carrying its message) or a parsed payload. -/
inductive ParseOutcome
  | fail (msg : List Char)
  | ok (p : SsePayload)
deriving DecidableEq

def defaultIssueMsg : List Char := String.toList "The assistant ran into an issue."

/-- `payload.content || 'The assistant ran into an issue.'` from the
`event: error` branch (JS `||` takes the default for every falsy value,
including the empty string). -/
def errContentMsg : JsonField → List Char
  | .str s => if s = [] then defaultIssueMsg else s
  | .other coerced truthy => if truthy then coerced else defaultIssueMsg
  | .absent => defaultIssueMsg

/-- `chunk.split('\n')`. -/
def splitLines : List Char → List (List Char)
  | [] => [[]]
  | c :: rest =>
    if c = '\n' then [] :: splitLines rest else consSeg c (splitLines rest)

def dataMarker : List Char := String.toList "data:"

/-- `chunk.split('\n').find((line) => line.startsWith('data:'))`. -/
def findDataLine (frame : List Char) : Option (List Char) :=
  (splitLines frame).find? fun line => dataMarker.isPrefixOf line

/-- `dataLine.replace(/^data:\s*/, '')`. -/
def stripDataMarker (line : List Char) : List Char :=
  if dataMarker.isPrefixOf line then (line.drop 5).dropWhile jsWs else line

/-- Effect of one `processEvent` call: returned `false` with no action,
called `appendChunk` and returned `false`, returned `true` (done signal),
or threw an `Error`. -/
inductive ProcOutcome
  | noEvent
  | chunkAppend (s : List Char)
  | doneSig
  | failure (msg : List Char)
deriving DecidableEq

def eventChunkTag : List Char := String.toList "chunk"

def eventErrorTag : List Char := String.toList "error"

def eventDoneTag : List Char := String.toList "done"

/-- Embedding of `processEvent`, parameterised by the platform JSON parser
(`JSON.parse` is a browser builtin; any parser can be plugged in).  The
`catch` clause of the source rethrows every caught `Error` unchanged, so a
`SyntaxError` from `JSON.parse` propagates with its own message and the
`event: error` throw passes through unchanged; the
`'Unexpected response payload.'` fallback would only fire for a non-`Error`
throwable, which no statement in the `try` block produces. -/
def processEvent (parse : List Char → ParseOutcome) (frame : List Char) :
    ProcOutcome :=
  match findDataLine frame with
  | none => .noEvent
  | some line =>
    match parse (stripDataMarker line) with
    | .fail msg => .failure msg
    | .ok p =>
      if p.event = JsonField.str eventChunkTag ∧ p.content.isStr = true then
        .chunkAppend p.content.strVal
      else if p.event = JsonField.str eventErrorTag then
        .failure (errContentMsg p.content)
      else if p.event = JsonField.str eventDoneTag then
        .doneSig
      else
        .noEvent

/-- Result of the `for (const segment of segments)` loop: the loop ran to
the end (with the final value of `doneSignal`), or a `processEvent` call
threw. -/
inductive SegRes
  | ok (doneSig : Bool)
  | err (msg : List Char)
deriving DecidableEq

/-- The `for (const segment of segments)` loop of `handleSubmit`: every
segment is processed in order (the loop does not stop when `doneSignal`
becomes true); a throw aborts the loop, keeping the transcript updates
already applied. -/
def processSegments (parse : List Char → ParseOutcome) (aid : List Char)
    (msgs : List Message) (doneSig : Bool) :
    List (List Char) → List Message × SegRes
  | [] => (msgs, .ok doneSig)
  | seg :: rest =>
    match processEvent parse seg with
    | .noEvent => processSegments parse aid msgs doneSig rest
    | .chunkAppend s => processSegments parse aid (appendChunk aid s msgs) doneSig rest
    | .doneSig => processSegments parse aid msgs true rest
    | .failure m => (msgs, .err m)

/-- How the transport ends after the given delivery chunks: a final read
resolving with `done: true`, or a read rejecting with `AbortError`
(user cancellation). -/
inductive Terminator
  | eos
  | abort
deriving DecidableEq

/-- How the session ended: the `while` loop exited normally (with the
final `doneSignal`), the `catch` block recorded a failure message, or the
`catch` block saw an `AbortError` (session cancelled). -/
inductive SessEnd
  | normal (doneSig : Bool)
  | failed (msg : List Char)
  | cancelled
deriving DecidableEq

/-- The `while (!doneSignal)` read loop of `handleSubmit`: concatenate the
decoded chunk onto the carryover buffer, split on the blank-line delimiter,
keep the last segment as the new buffer, process the complete segments in
order, and on the final read flush a non-whitespace carryover as one last
frame.  A throw is caught (`Failed`), an aborted read is caught as
cancellation, and once `doneSignal` is set no further reads occur. -/
def runReads (parse : List Char → ParseOutcome) (aid : List Char)
    (msgs : List Message) (buffer : List Char) :
    List (List Char) → Terminator → List Message × SessEnd
  | [], .abort => (msgs, .cancelled)
  | [], .eos =>
    let segs := splitOnDelim buffer
    match processSegments parse aid msgs false segs.dropLast with
    | (msgs1, .err m) => (msgs1, .failed m)
    | (msgs1, .ok dsig) =>
      let buf2 := segs.getLastD []
      if 0 < (jsTrim buf2).length then
        match processEvent parse buf2 with
        | .failure m => (msgs1, .failed m)
        | .chunkAppend s => (appendChunk aid s msgs1, .normal dsig)
        | .doneSig => (msgs1, .normal true)
        | .noEvent => (msgs1, .normal dsig)
      else (msgs1, .normal dsig)
  | c :: rest, term =>
    let segs := splitOnDelim (buffer ++ c)
    match processSegments parse aid msgs false segs.dropLast with
    | (msgs1, .err m) => (msgs1, .failed m)
    | (msgs1, .ok dsig) =>
      if dsig then (msgs1, .normal true)
      else runReads parse aid msgs1 (segs.getLastD []) rest term

/-- Ghost-instrumented variant of `processSegments` that additionally
records, in order, the content of every chunk event actually applied to
the transcript. -/
def processSegmentsT (parse : List Char → ParseOutcome) (aid : List Char)
    (msgs : List Message) (doneSig : Bool) (applied : List (List Char)) :
    List (List Char) → List Message × List (List Char) × SegRes
  | [] => (msgs, applied, .ok doneSig)
  | seg :: rest =>
    match processEvent parse seg with
    | .noEvent => processSegmentsT parse aid msgs doneSig applied rest
    | .chunkAppend s =>
      processSegmentsT parse aid (appendChunk aid s msgs) doneSig (applied ++ [s]) rest
    | .doneSig => processSegmentsT parse aid msgs true applied rest
    | .failure m => (msgs, applied, .err m)

/-- Ghost-instrumented variant of `runReads` recording the applied chunk
contents. -/
def runReadsT (parse : List Char → ParseOutcome) (aid : List Char)
    (msgs : List Message) (applied : List (List Char)) (buffer : List Char) :
    List (List Char) → Terminator → List Message × List (List Char) × SessEnd
  | [], .abort => (msgs, applied, .cancelled)
  | [], .eos =>
    let segs := splitOnDelim buffer
    match processSegmentsT parse aid msgs false applied segs.dropLast with
    | (msgs1, applied1, .err m) => (msgs1, applied1, .failed m)
    | (msgs1, applied1, .ok dsig) =>
      let buf2 := segs.getLastD []
      if 0 < (jsTrim buf2).length then
        match processEvent parse buf2 with
        | .failure m => (msgs1, applied1, .failed m)
        | .chunkAppend s => (appendChunk aid s msgs1, applied1 ++ [s], .normal dsig)
        | .doneSig => (msgs1, applied1, .normal true)
        | .noEvent => (msgs1, applied1, .normal dsig)
      else (msgs1, applied1, .normal dsig)
  | c :: rest, term =>
    let segs := splitOnDelim (buffer ++ c)
    match processSegmentsT parse aid msgs false applied segs.dropLast with
    | (msgs1, applied1, .err m) => (msgs1, applied1, .failed m)
    | (msgs1, applied1, .ok dsig) =>
      if dsig then (msgs1, applied1, .normal true)
      else runReadsT parse aid msgs1 applied1 (segs.getLastD []) rest term

/-! ### A concrete JSON parser for witness evaluation -/

/-- Insignificant JSON whitespace. -/
def jsonWsChar (c : Char) : Bool :=
  c = ' ' || c = '\t' || c = '\n' || c = '\r'

def skipJsonWs (l : List Char) : List Char := l.dropWhile jsonWsChar

/-- Escape letters and the control characters they denote. -/
def escPairs : List (Char × Char) :=
  [('n', '\n'), ('t', '\t'), ('r', '\r'), ('b', Char.ofNat 8), ('f', Char.ofNat 12)]

/-- Decode one JSON string escape character. -/
def escChar (e : Char) : Option Char :=
  if e = '"' ∨ e = '\\' ∨ e = '/' then some e
  else (escPairs.find? fun pr => pr.1 = e).map Prod.snd

/-- Parse the remainder of a JSON string literal (after the opening
quote), returning the decoded content and the input following the
closing quote. -/
def parseJsonStringRest : List Char → Option (List Char × List Char)
  | [] => none
  | '"' :: rest => some ([], rest)
  | '\\' :: e :: rest =>
    match escChar e with
    | none => none
    | some c => (parseJsonStringRest rest).map fun pr => (c :: pr.1, pr.2)
  | c :: rest => (parseJsonStringRest rest).map fun pr => (c :: pr.1, pr.2)

def jsonNumChar (c : Char) : Bool :=
  c.isDigit || c = '-' || c = '+' || c = '.' || c = 'e' || c = 'E'

/-- Parse one flat JSON value into the field view the interpreter needs:
strings become `JsonField.str`; numbers, booleans and `null` become
`JsonField.other` with their JS string coercion and truthiness. -/
def parseJsonValue : List Char → Option (JsonField × List Char)
  | '"' :: rest => (parseJsonStringRest rest).map fun pr => (JsonField.str pr.1, pr.2)
  | 't' :: 'r' :: 'u' :: 'e' :: rest => some (.other (String.toList "true") true, rest)
  | 'f' :: 'a' :: 'l' :: 's' :: 'e' :: rest => some (.other (String.toList "false") false, rest)
  | 'n' :: 'u' :: 'l' :: 'l' :: rest => some (.other (String.toList "null") false, rest)
  | c :: rest =>
    if jsonNumChar c then
      some (.other ((c :: rest).takeWhile jsonNumChar)
              (((c :: rest).takeWhile jsonNumChar).any fun d => d.isDigit && d ≠ '0'),
            (c :: rest).dropWhile jsonNumChar)
    else none
  | [] => none

def eventKey : List Char := String.toList "event"

def contentKey : List Char := String.toList "content"

/-- Record a parsed member into the payload view (last occurrence wins,
as with `JSON.parse`); unknown keys are kept only to be ignored. -/
def updatePayload (p : SsePayload) (key : List Char) (v : JsonField) : SsePayload :=
  if key = eventKey then { p with event := v }
  else if key = contentKey then { p with content := v }
  else p

/-- Parse the members of a flat JSON object, fuelled by the input length. -/
def parseJsonMembers : Nat → SsePayload → List Char → Option SsePayload
  | 0, _, _ => none
  | fuel + 1, acc, l =>
    match skipJsonWs l with
    | '"' :: rest =>
      match parseJsonStringRest rest with
      | none => none
      | some (key, r1) =>
        match skipJsonWs r1 with
        | ':' :: r2 =>
          match parseJsonValue (skipJsonWs r2) with
          | none => none
          | some (v, r3) =>
            match skipJsonWs r3 with
            | ',' :: r4 => parseJsonMembers fuel (updatePayload acc key v) r4
            | '\x7d' :: r5 =>
              if skipJsonWs r5 = [] then some (updatePayload acc key v) else none
            | _ => none
        | _ => none
    | _ => none

/-- A small concrete stand-in for `JSON.parse`, covering the flat
`\x7b event, content \x7d` payloads exercised by the witnesses below:
string, number, boolean and `null` members with JSON string escapes and
arbitrary extra keys; anything else is a parse failure. -/
def miniParse (l : List Char) : ParseOutcome :=
  match skipJsonWs l with
  | '\x7b' :: rest =>
    match skipJsonWs rest with
    | '\x7d' :: r =>
      if skipJsonWs r = [] then .ok ⟨.absent, .absent⟩
      else .fail (String.toList "Unexpected token")
    | r =>
      match parseJsonMembers (r.length + 1) ⟨.absent, .absent⟩ r with
      | some p => .ok p
      | none => .fail (String.toList "Unexpected token")
  | _ => .fail (String.toList "Unexpected token")

/-! ### Submission gate and request body -/

/-- The fixed greeting transcript entry, excluded from request context
(`skipContext: true`). -/
def initialMessages : List Message :=
  [{ id := String.toList "welcome",
     role := .assistant,
     content := String.toList "Hello! I am your monochrome AI companion. Ask me anything - math, code, or general questions.",
     skipContext := true }]

def mkUserMessage (uid trimmed : List Char) : Message :=
  { id := uid, role := .user, content := trimmed, skipContext := false }

def mkAssistantMessage (aid : List Char) : Message :=
  { id := aid, role := .assistant, content := [], skipContext := false }

/-- What the synchronous head of `handleSubmit` produces when a
submission is accepted: the transcript after appending the user and
assistant messages, and the `(role, content)` pairs of the request body. -/
structure SubmitResult where
  newMessages : List Message
  payload : List (Role × List Char)
deriving DecidableEq

/-- The synchronous head of `handleSubmit`: the
`if (!inputValue.trim() || isStreaming) return` gate, the two appended
messages (user content trimmed, assistant content empty), and the request
body built from `[...messages, userMessage]` with every `skipContext`
entry filtered out. -/
def submitSetup (input : List Char) (isStreaming : Bool) (msgs : List Message)
    (uid aid : List Char) : Option SubmitResult :=
  if (jsTrim input).length = 0 ∨ isStreaming = true then none
  else
    some
      { newMessages := msgs ++ [mkUserMessage uid (jsTrim input), mkAssistantMessage aid],
        payload :=
          ((msgs ++ [mkUserMessage uid (jsTrim input)]).filter fun m => !m.skipContext).map
            fun m => (m.role, m.content) }

/-! ### Concrete sample data for witnesses and counterexamples -/

def sampleStream : List Char := String.toList "data: a\n\ndata: b\n\n"

def sampleWholeChunks : List (List Char) := [sampleStream]

def sampleByteChunks : List (List Char) := sampleStream.map fun c => [c]

def aidSample : List Char := String.toList "a1"

def frameDone : List Char := String.toList "data: \x7b\"event\":\"done\"\x7d"

def frameChunkX : List Char :=
  String.toList "data: \x7b\"event\":\"chunk\",\"content\":\"X\"\x7d"

def frameChunkHi : List Char :=
  String.toList "data: \x7b\"event\":\"chunk\",\"content\":\"Hi\"\x7d"

def frameErrorOverloaded : List Char :=
  String.toList "data: \x7b\"event\":\"error\",\"content\":\"overloaded\"\x7d"

def frameErrorEmpty : List Char :=
  String.toList "data: \x7b\"event\":\"error\",\"content\":\"\"\x7d"

def framePing : List Char := String.toList "data: \x7b\"event\":\"ping\"\x7d"

def frameChunkNoContent : List Char := String.toList "data: \x7b\"event\":\"chunk\"\x7d"

def frameBadJson : List Char := String.toList "data: not json"

def delimStr : List Char := ['\n', '\n']

/-- One delivery chunk carrying a done frame immediately followed by a
chunk frame. -/
def doneThenChunkDelivery : List Char :=
  frameDone ++ delimStr ++ frameChunkX ++ delimStr

/-- The active assistant message after one appended chunk. -/
def appendedSample : Message := { mkAssistantMessage aidSample with content := ['!'] }

/-- The submit result for the accepted sample submission " hi ". -/
def sampleSubmit : SubmitResult :=
  (submitSetup (String.toList " hi ") false initialMessages
    (String.toList "u1") aidSample).getD ⟨[], []⟩

theorem getLastD_of_ne_nil {α : Type _} {l : List α} (h : l ≠ []) (d1 d2 : α) :
    l.getLastD d1 = l.getLastD d2 := by
  cases l with
  | nil => exact absurd rfl h
  | cons b t => rw [List.getLastD_cons, List.getLastD_cons]

theorem dropLast_cons_of_ne_nil {α : Type _} (s : α) {ss : List α} (h : ss ≠ []) :
    (s :: ss).dropLast = s :: ss.dropLast := by
  cases ss with
  | nil => exact absurd rfl h
  | cons t ts => rw [List.dropLast_cons₂]

theorem dropLast_append_of_ne_nil {α : Type _} (A : List α) {T : List α} (h : T ≠ []) :
    (A ++ T).dropLast = A ++ T.dropLast := by
  induction A with
  | nil => simp
  | cons a A ih =>
    have hAT : A ++ T ≠ [] := by
      cases T with
      | nil => exact absurd rfl h
      | cons t ts => simp
    rw [List.cons_append, dropLast_cons_of_ne_nil a hAT, ih, List.cons_append]

theorem getLastD_append_of_ne_nil {α : Type _} (A : List α) {T : List α} (h : T ≠ []) (d : α) :
    (A ++ T).getLastD d = T.getLastD d := by
  induction A generalizing d with
  | nil => rfl
  | cons a A ih =>
    rw [List.cons_append, List.getLastD_cons, ih a, getLastD_of_ne_nil h a d]

theorem splitOnDelim_nil : splitOnDelim [] = [[]] := rfl

theorem splitOnDelim_single (c : Char) : splitOnDelim [c] = [[c]] := rfl

theorem splitOnDelim_cons₂ (c1 c2 : Char) (t : List Char) :
    splitOnDelim (c1 :: c2 :: t) =
      if c1 = '\n' ∧ c2 = '\n' then [] :: splitOnDelim t
      else consSeg c1 (splitOnDelim (c2 :: t)) := rfl

theorem splitOnDelim_ne_nil (l : List Char) : splitOnDelim l ≠ [] := by
  induction l using splitOnDelim.induct with
  | case1 => simp [splitOnDelim]
  | case2 c => simp [splitOnDelim]
  | case3 c1 c2 rest h ih =>
    simp [splitOnDelim, h]
  | case4 c1 c2 rest h ih =>
    simp only [splitOnDelim, if_neg h]
    cases hs : splitOnDelim (c2 :: rest) with
    | nil => exact absurd hs ih
    | cons s ss => simp [consSeg]

theorem splitOnDelim_eq_singleton :
    ∀ l : List Char, ∀ x, splitOnDelim l = [x] → l = x := by
  intro l
  induction l using splitOnDelim.induct with
  | case1 =>
    intro x h
    rw [splitOnDelim_nil] at h
    injection h with h1 h2
  | case2 c =>
    intro x h
    rw [splitOnDelim_single] at h
    injection h with h1 h2
  | case3 c1 c2 rest h ih =>
    intro x hx
    rw [splitOnDelim_cons₂, if_pos h] at hx
    have : splitOnDelim rest = [] := by
      injection hx with h1 h2
    exact absurd this (splitOnDelim_ne_nil rest)
  | case4 c1 c2 rest h ih =>
    intro x hx
    rw [splitOnDelim_cons₂, if_neg h] at hx
    cases hT : splitOnDelim (c2 :: rest) with
    | nil => exact absurd hT (splitOnDelim_ne_nil _)
    | cons s ss =>
      rw [hT] at hx
      simp only [consSeg] at hx
      injection hx with h1 h2
      subst h2
      have hs := ih s (by rw [hT])
      rw [← h1, ← hs]

theorem splitOnDelim_append (a b : List Char) :
    splitOnDelim (a ++ b) =
      (splitOnDelim a).dropLast ++
        splitOnDelim ((splitOnDelim a).getLastD [] ++ b) := by
  induction a using splitOnDelim.induct with
  | case1 => simp [splitOnDelim_nil]
  | case2 c => simp [splitOnDelim_single]
  | case3 c1 c2 rest h ih =>
    have hS := splitOnDelim_ne_nil rest
    simp only [List.cons_append]
    rw [splitOnDelim_cons₂, if_pos h, splitOnDelim_cons₂, if_pos h, ih,
      dropLast_cons_of_ne_nil _ hS, List.getLastD_cons, List.cons_append]
  | case4 c1 c2 rest h ih =>
    have ih' := ih
    simp only [List.cons_append] at ih'
    simp only [List.cons_append]
    rw [splitOnDelim_cons₂, if_neg h, ih', splitOnDelim_cons₂, if_neg h]
    cases hT : splitOnDelim (c2 :: rest) with
    | nil => exact absurd hT (splitOnDelim_ne_nil _)
    | cons s ss =>
      cases ss with
      | nil =>
        have hs : c2 :: rest = s := splitOnDelim_eq_singleton _ s hT
        subst hs
        simp only [consSeg, List.dropLast_single, List.getLastD_cons,
          List.getLastD_nil, List.nil_append, List.cons_append]
        rw [splitOnDelim_cons₂, if_neg h]
        rfl
      | cons t ts =>
        simp only [consSeg, List.dropLast_cons₂, List.getLastD_cons,
          List.cons_append]

theorem splitOnDelim_last_noDelim (l : List Char) :
    splitOnDelim ((splitOnDelim l).getLastD []) = [(splitOnDelim l).getLastD []] := by
  induction l using splitOnDelim.induct with
  | case1 => rfl
  | case2 c => rfl
  | case3 c1 c2 rest h ih =>
    rw [splitOnDelim_cons₂, if_pos h, List.getLastD_cons]
    exact ih
  | case4 c1 c2 rest h ih =>
    rw [splitOnDelim_cons₂, if_neg h]
    cases hT : splitOnDelim (c2 :: rest) with
    | nil => exact absurd hT (splitOnDelim_ne_nil _)
    | cons s ss =>
      rw [hT] at ih
      cases ss with
      | nil =>
        have hs : c2 :: rest = s := splitOnDelim_eq_singleton _ s hT
        subst hs
        simp only [consSeg, List.getLastD_cons, List.getLastD_nil]
        rw [splitOnDelim_cons₂, if_neg h, hT]
        rfl
      | cons t ts =>
        simpa only [consSeg, List.getLastD_cons] using ih

theorem joinWithDelim_splitOnDelim (l : List Char) :
    joinWithDelim (splitOnDelim l) = l := by
  induction l using splitOnDelim.induct with
  | case1 => rfl
  | case2 c => rfl
  | case3 c1 c2 rest h ih =>
    rw [splitOnDelim_cons₂, if_pos h]
    cases hS : splitOnDelim rest with
    | nil => exact absurd hS (splitOnDelim_ne_nil _)
    | cons s ss =>
      rw [hS] at ih
      obtain ⟨h1, h2⟩ := h
      subst h1
      subst h2
      simpa only [joinWithDelim, List.nil_append] using congrArg (fun t => '\n' :: '\n' :: t) ih
  | case4 c1 c2 rest h ih =>
    rw [splitOnDelim_cons₂, if_neg h]
    cases hT : splitOnDelim (c2 :: rest) with
    | nil => exact absurd hT (splitOnDelim_ne_nil _)
    | cons s ss =>
      rw [hT] at ih
      cases ss with
      | nil =>
        simp only [joinWithDelim] at ih
        simp only [consSeg, joinWithDelim, ih]
      | cons t ts =>
        simp only [joinWithDelim] at ih
        simp only [consSeg, joinWithDelim, List.cons_append, ih]

theorem splitOnDelim_head_cases (c : Char) (t s : List Char) (ss : List (List Char))
    (h : splitOnDelim (c :: t) = s :: ss) : s = [] ∨ s.head? = some c := by
  cases t with
  | nil =>
    rw [splitOnDelim_single] at h
    injection h with h1 h2
    right
    rw [← h1]
    rfl
  | cons c2 rest =>
    rw [splitOnDelim_cons₂] at h
    by_cases hc : c = '\n' ∧ c2 = '\n'
    · rw [if_pos hc] at h
      injection h with h1 h2
      left
      exact h1.symm
    · rw [if_neg hc] at h
      cases hU : splitOnDelim (c2 :: rest) with
      | nil => exact absurd hU (splitOnDelim_ne_nil _)
      | cons u us =>
        rw [hU] at h
        simp only [consSeg] at h
        injection h with h1 h2
        right
        rw [← h1]
        rfl

theorem splitOnDelim_seg_noDelim (l : List Char) :
    ∀ s ∈ splitOnDelim l, hasDelim s = false := by
  induction l using splitOnDelim.induct with
  | case1 =>
    intro s hs
    rw [splitOnDelim_nil, List.mem_singleton] at hs
    subst hs
    rfl
  | case2 c =>
    intro s hs
    rw [splitOnDelim_single, List.mem_singleton] at hs
    subst hs
    rfl
  | case3 c1 c2 rest h ih =>
    intro s hs
    rw [splitOnDelim_cons₂, if_pos h, List.mem_cons] at hs
    rcases hs with hs | hs
    · subst hs
      rfl
    · exact ih s hs
  | case4 c1 c2 rest h ih =>
    intro s hs
    rw [splitOnDelim_cons₂, if_neg h] at hs
    cases hT : splitOnDelim (c2 :: rest) with
    | nil => exact absurd hT (splitOnDelim_ne_nil _)
    | cons u us =>
      rw [hT] at hs
      simp only [consSeg, List.mem_cons] at hs
      rcases hs with hs | hs
      · subst hs
        cases hu : u with
        | nil => rfl
        | cons x xs =>
          have hx : x = c2 := by
            have := splitOnDelim_head_cases c2 rest u us hT
            rcases this with h0 | h0
            · rw [h0] at hu
              exact absurd hu.symm (by simp)
            · rw [hu] at h0
              injection h0
          have hd : hasDelim u = false := ih u (by rw [hT]; exact List.mem_cons_self u us)
          rw [hu] at hd
          show ((c1 = '\n' && x = '\n') || hasDelim (x :: xs)) = false
          rw [hd, Bool.or_false]
          subst hx
          simp only [Bool.and_eq_false_iff, decide_eq_false_iff_not]
          by_contra hcon
          push_neg at hcon
          exact h ⟨hcon.1, hcon.2⟩
      · exact ih s (by rw [hT]; exact List.mem_cons_of_mem u hs)

theorem feedAll_join (chunks : List (List Char)) :
    ∀ buffer : List Char, splitOnDelim buffer = [buffer] →
      feedAll buffer chunks =
        ((splitOnDelim (buffer ++ chunks.flatten)).dropLast,
         (splitOnDelim (buffer ++ chunks.flatten)).getLastD []) := by
  induction chunks with
  | nil =>
    intro buffer h
    simp only [feedAll, List.flatten_nil, List.append_nil, h,
      List.dropLast_single, List.getLastD_cons, List.getLastD_nil]
  | cons c rest ih =>
    intro buffer h
    have h4 := splitOnDelim_last_noDelim (buffer ++ c)
    have hrec := ih ((splitOnDelim (buffer ++ c)).getLastD []) h4
    have hT := splitOnDelim_ne_nil
      ((splitOnDelim (buffer ++ c)).getLastD [] ++ rest.flatten)
    have happ : splitOnDelim (buffer ++ (c :: rest).flatten) =
        (splitOnDelim (buffer ++ c)).dropLast ++
          splitOnDelim ((splitOnDelim (buffer ++ c)).getLastD [] ++ rest.flatten) := by
      rw [List.flatten_cons, ← List.append_assoc]
      exact splitOnDelim_append (buffer ++ c) rest.flatten
    simp only [feedAll, feedChunk, hrec, happ,
      dropLast_append_of_ne_nil _ hT, getLastD_append_of_ne_nil _ hT]

theorem reassembleFrames_join (chunks : List (List Char)) :
    reassembleFrames chunks =
      (splitOnDelim chunks.flatten).dropLast ++
        eosFlush ((splitOnDelim chunks.flatten).getLastD []) := by
  have h := feedAll_join chunks [] rfl
  simp only [reassembleFrames, h, List.nil_append]

theorem jsTrim_eq_nil_iff (l : List Char) : jsTrim l = [] ↔ l.all jsWs = true := by
  unfold jsTrim
  rw [List.reverse_eq_nil_iff, List.dropWhile_eq_nil_iff, List.all_eq_true]
  constructor
  · intro h x hx
    have hl : x ∈ l.takeWhile jsWs ++ l.dropWhile jsWs := by
      rw [List.takeWhile_append_dropWhile]
      exact hx
    rcases List.mem_append.mp hl with hx1 | hx2
    · exact List.mem_takeWhile_imp hx1
    · exact h x (List.mem_reverse.mpr hx2)
  · intro h x hx
    exact h x ((List.dropWhile_sublist jsWs).subset (List.mem_reverse.mp hx))

theorem jsTrim_pos_iff (l : List Char) :
    0 < (jsTrim l).length ↔ ∃ c ∈ l, jsWs c = false := by
  rw [List.length_pos]
  constructor
  · intro h
    by_contra hcon
    push_neg at hcon
    apply h
    rw [jsTrim_eq_nil_iff, List.all_eq_true]
    intro x hx
    have hx2 := hcon x hx
    simpa using hx2
  · rintro ⟨c, hc, hf⟩ h
    rw [jsTrim_eq_nil_iff, List.all_eq_true] at h
    rw [h c hc] at hf
    simp at hf

theorem processSegmentsT_proj (parse : List Char → ParseOutcome) (aid : List Char) :
    ∀ (segs : List (List Char)) (msgs : List Message) (doneSig : Bool)
      (applied : List (List Char)),
      ((processSegmentsT parse aid msgs doneSig applied segs).1,
       (processSegmentsT parse aid msgs doneSig applied segs).2.2) =
        processSegments parse aid msgs doneSig segs := by
  intro segs
  induction segs with
  | nil =>
    intro msgs ds ap
    rfl
  | cons seg rest ih =>
    intro msgs ds ap
    simp only [processSegmentsT, processSegments]
    cases processEvent parse seg with
    | noEvent => exact ih msgs ds ap
    | chunkAppend s => exact ih (appendChunk aid s msgs) ds (ap ++ [s])
    | doneSig => exact ih msgs true ap
    | failure m => rfl

theorem runReadsT_proj (parse : List Char → ParseOutcome) (aid : List Char) :
    ∀ (chunks : List (List Char)) (term : Terminator) (msgs : List Message)
      (applied : List (List Char)) (buffer : List Char),
      ((runReadsT parse aid msgs applied buffer chunks term).1,
       (runReadsT parse aid msgs applied buffer chunks term).2.2) =
        runReads parse aid msgs buffer chunks term := by
  intro chunks
  induction chunks with
  | nil =>
    intro term msgs ap buffer
    cases term with
    | abort => rfl
    | eos =>
      simp only [runReadsT, runReads]
      have hp := processSegmentsT_proj parse aid (splitOnDelim buffer).dropLast msgs false ap
      rcases hps : processSegmentsT parse aid msgs false ap (splitOnDelim buffer).dropLast
        with ⟨msgs1, ap1, r⟩
      rw [hps] at hp
      rw [← hp]
      cases r with
      | err m => rfl
      | ok dsig =>
        by_cases hlen : 0 < (jsTrim ((splitOnDelim buffer).getLastD [])).length
        · simp only [if_pos hlen]
          cases processEvent parse ((splitOnDelim buffer).getLastD []) <;> rfl
        · simp only [if_neg hlen]
  | cons c rest ih =>
    intro term msgs ap buffer
    simp only [runReadsT, runReads]
    have hp := processSegmentsT_proj parse aid (splitOnDelim (buffer ++ c)).dropLast msgs false ap
    rcases hps : processSegmentsT parse aid msgs false ap (splitOnDelim (buffer ++ c)).dropLast
      with ⟨msgs1, ap1, r⟩
    rw [hps] at hp
    rw [← hp]
    cases r with
    | err m => rfl
    | ok dsig =>
      cases dsig with
      | true => rfl
      | false => exact ih term msgs1 ap1 ((splitOnDelim (buffer ++ c)).getLastD [])

theorem processSegmentsT_applied (parse : List Char → ParseOutcome) (aid : List Char) :
    ∀ (segs : List (List Char)) (msgs : List Message) (doneSig : Bool)
      (applied : List (List Char)), ∃ d,
      (processSegmentsT parse aid msgs doneSig applied segs).2.1 = applied ++ d ∧
      (processSegmentsT parse aid msgs doneSig applied segs).1 =
        d.foldl (fun ms v => appendChunk aid v ms) msgs := by
  intro segs
  induction segs with
  | nil =>
    intro msgs ds ap
    exact ⟨[], by simp [processSegmentsT]⟩
  | cons seg rest ih =>
    intro msgs ds ap
    simp only [processSegmentsT]
    cases processEvent parse seg with
    | noEvent => exact ih msgs ds ap
    | chunkAppend s =>
      obtain ⟨d, hd1, hd2⟩ := ih (appendChunk aid s msgs) ds (ap ++ [s])
      exact ⟨s :: d, by rw [hd1, List.append_assoc] ; rfl, by rw [hd2] ; rfl⟩
    | doneSig => exact ih msgs true ap
    | failure m => exact ⟨[], by simp⟩

theorem runReadsT_applied (parse : List Char → ParseOutcome) (aid : List Char) :
    ∀ (chunks : List (List Char)) (term : Terminator) (msgs : List Message)
      (applied : List (List Char)) (buffer : List Char), ∃ d,
      (runReadsT parse aid msgs applied buffer chunks term).2.1 = applied ++ d ∧
      (runReadsT parse aid msgs applied buffer chunks term).1 =
        d.foldl (fun ms v => appendChunk aid v ms) msgs := by
  intro chunks
  induction chunks with
  | nil =>
    intro term msgs ap buffer
    cases term with
    | abort => exact ⟨[], by simp [runReadsT]⟩
    | eos =>
      simp only [runReadsT]
      obtain ⟨d1, hd1, hd2⟩ :=
        processSegmentsT_applied parse aid (splitOnDelim buffer).dropLast msgs false ap
      rcases hps : processSegmentsT parse aid msgs false ap (splitOnDelim buffer).dropLast
        with ⟨msgs1, ap1, r⟩
      rw [hps] at hd1 hd2
      simp only at hd1 hd2
      cases r with
      | err m => exact ⟨d1, hd1, hd2⟩
      | ok dsig =>
        by_cases hlen : 0 < (jsTrim ((splitOnDelim buffer).getLastD [])).length
        · simp only [if_pos hlen]
          cases processEvent parse ((splitOnDelim buffer).getLastD []) with
          | noEvent => exact ⟨d1, hd1, hd2⟩
          | chunkAppend s =>
            refine ⟨d1 ++ [s], ?_, ?_⟩
            · show ap1 ++ [s] = ap ++ (d1 ++ [s])
              rw [hd1, List.append_assoc]
            · show appendChunk aid s msgs1 =
                List.foldl (fun ms v => appendChunk aid v ms) msgs (d1 ++ [s])
              rw [List.foldl_append, ← hd2]
              rfl
          | doneSig => exact ⟨d1, hd1, hd2⟩
          | failure m => exact ⟨d1, hd1, hd2⟩
        · simp only [if_neg hlen]
          exact ⟨d1, hd1, hd2⟩
  | cons c rest ih =>
    intro term msgs ap buffer
    simp only [runReadsT]
    obtain ⟨d1, hd1, hd2⟩ :=
      processSegmentsT_applied parse aid (splitOnDelim (buffer ++ c)).dropLast msgs false ap
    rcases hps : processSegmentsT parse aid msgs false ap (splitOnDelim (buffer ++ c)).dropLast
      with ⟨msgs1, ap1, r⟩
    rw [hps] at hd1 hd2
    simp only at hd1 hd2
    cases r with
    | err m => exact ⟨d1, hd1, hd2⟩
    | ok dsig =>
      cases dsig with
      | true => exact ⟨d1, hd1, hd2⟩
      | false =>
        obtain ⟨d2, he1, he2⟩ := ih term msgs1 ap1 ((splitOnDelim (buffer ++ c)).getLastD [])
        refine ⟨d1 ++ d2, ?_, ?_⟩
        · show (runReadsT parse aid msgs1 ap1
              ((splitOnDelim (buffer ++ c)).getLastD []) rest term).2.1 = ap ++ (d1 ++ d2)
          rw [he1, hd1, List.append_assoc]
        · show (runReadsT parse aid msgs1 ap1
              ((splitOnDelim (buffer ++ c)).getLastD []) rest term).1 =
            List.foldl (fun ms v => appendChunk aid v ms) msgs (d1 ++ d2)
          rw [he2, hd2, List.foldl_append]

theorem foldl_appendChunk_getElem (aid : List Char) :
    ∀ (d : List (List Char)) (msgs : List Message) (i : Nat),
      (d.foldl (fun ms v => appendChunk aid v ms) msgs)[i]? =
        (msgs[i]?).map fun m =>
          if m.id = aid then { m with content := m.content ++ d.flatten } else m := by
  intro d
  induction d with
  | nil =>
    intro msgs i
    simp only [List.foldl_nil, List.flatten_nil, List.append_nil]
    cases h : msgs[i]? with
    | none => rfl
    | some m =>
      simp only [Option.map_some']
      by_cases hid : m.id = aid
      · rw [if_pos hid]
      · rw [if_neg hid]
  | cons v d' ih =>
    intro msgs i
    rw [List.foldl_cons, ih (appendChunk aid v msgs) i]
    unfold appendChunk
    rw [List.getElem?_map]
    cases h : msgs[i]? with
    | none => rfl
    | some m =>
      simp only [Option.map_some']
      by_cases hid : m.id = aid
      · simp only [if_pos hid, Option.map_some']
        rw [List.flatten_cons, List.append_assoc]
      · simp only [if_neg hid, Option.map_some']

theorem runReads_cons_of_err (parse : List Char → ParseOutcome) (aid : List Char)
    (msgs : List Message) (buffer c : List Char) (rest : List (List Char))
    (term : Terminator) (m : List Char) (msgs1 : List Message)
    (h : processSegments parse aid msgs false (splitOnDelim (buffer ++ c)).dropLast =
      (msgs1, SegRes.err m)) :
    runReads parse aid msgs buffer (c :: rest) term = (msgs1, SessEnd.failed m) := by
  simp only [runReads, h]

theorem runReads_cons_of_done (parse : List Char → ParseOutcome) (aid : List Char)
    (msgs : List Message) (buffer c : List Char) (rest : List (List Char))
    (term : Terminator) (msgs1 : List Message)
    (h : processSegments parse aid msgs false (splitOnDelim (buffer ++ c)).dropLast =
      (msgs1, SegRes.ok true)) :
    runReads parse aid msgs buffer (c :: rest) term = (msgs1, SessEnd.normal true) := by
  simp only [runReads, h]
  rfl

theorem submitSetup_accepted (input : List Char) (msgs : List Message)
    (uid aid : List Char) (r : SubmitResult)
    (hr : submitSetup input false msgs uid aid = some r) :
    r.newMessages = msgs ++ [mkUserMessage uid (jsTrim input), mkAssistantMessage aid] ∧
    r.payload = ((msgs ++ [mkUserMessage uid (jsTrim input)]).filter
        fun m => !m.skipContext).map fun m => (m.role, m.content) := by
  by_cases hg : (jsTrim input).length = 0 ∨ (false : Bool) = true
  · rw [submitSetup, if_pos hg] at hr
    exact absurd hr (by simp)
  · rw [submitSetup, if_neg hg] at hr
    injection hr with hr1
    subst hr1
    exact ⟨rfl, rfl⟩

/-- C1: Frame splitting is chunk-boundary-invariant: for every complete SSE
text stream, the ordered frame list produced by the reassembler (buffer
concatenation, split on the blank-line delimiter, carryover of the last
segment, end-of-stream flush) is the same for every fragmentation of the
stream into delivery chunks; in particular one-byte chunks and a single
chunk yield the identical ordered frame list. -/
theorem c1_frames_chunk_boundary_invariant (cs1 cs2 : List (List Char))
    (h : cs1.flatten = cs2.flatten) :
    reassembleFrames cs1 = reassembleFrames cs2 := by
  rw [reassembleFrames_join, reassembleFrames_join, h]

theorem c1_frames_chunk_boundary_invariant_witness :
    sampleWholeChunks.flatten = sampleByteChunks.flatten ∧
      reassembleFrames sampleWholeChunks = reassembleFrames sampleByteChunks :=
  ⟨by decide, c1_frames_chunk_boundary_invariant sampleWholeChunks sampleByteChunks (by decide)⟩

/-- C2 (counterexample): the claim that no `Chunk` is applied after `Done`
fails when the chunk frame follows the done frame inside the same delivery
chunk: the `for` loop over the split segments does not stop when
`doneSignal` becomes true, so the later chunk content "X" IS appended to
the (initially empty) assistant message. -/
theorem c2_counterexample :
    runReads miniParse aidSample [mkAssistantMessage aidSample] []
        [doneThenChunkDelivery] Terminator.eos =
      ([{ mkAssistantMessage aidSample with content := ['X'] }], SessEnd.normal true) := by
  rfl

/-- C2 (amended): once a delivery chunk's segments set the done signal
(without a throw), the loop exits: no later delivery chunk is read, so no
chunk frame arriving in a subsequent delivery is ever applied, whatever
`rest` still holds; and once a frame raises a failure (as every
`event: error` frame does), the remaining segments of the same delivery
are not processed either.  Frames that follow the done frame within the
same delivery chunk, however, are still processed (see the
counterexample). -/
theorem c2_terminal_suppresses_later_deliveries (parse : List Char → ParseOutcome)
    (aid : List Char) (msgs : List Message) (buffer c : List Char)
    (rest : List (List Char)) (term : Terminator) (msgs1 : List Message)
    (h : processSegments parse aid msgs false (splitOnDelim (buffer ++ c)).dropLast =
      (msgs1, SegRes.ok true)) :
    runReads parse aid msgs buffer (c :: rest) term = (msgs1, SessEnd.normal true) ∧
    (∀ seg rest2 ds m, processEvent parse seg = ProcOutcome.failure m →
      processSegments parse aid msgs ds (seg :: rest2) = (msgs, SegRes.err m)) := by
  constructor
  · exact runReads_cons_of_done parse aid msgs buffer c rest term msgs1 h
  · intro seg rest2 ds m hm
    simp only [processSegments, hm]

theorem c2_terminal_suppresses_later_deliveries_witness :
    runReads miniParse aidSample [mkAssistantMessage aidSample] []
        [frameDone ++ delimStr, frameChunkX ++ delimStr] Terminator.eos =
      ([mkAssistantMessage aidSample], SessEnd.normal true) :=
  (c2_terminal_suppresses_later_deliveries miniParse aidSample
    [mkAssistantMessage aidSample] [] (frameDone ++ delimStr)
    [frameChunkX ++ delimStr] Terminator.eos [mkAssistantMessage aidSample] (by rfl)).1

/-- C3 (counterexample): a frame whose payload parses with the recognized
shape but an unrecognized `event` kind ("ping") does NOT raise a failure:
`processEvent` falls through every branch and returns as a silent no-op,
contradicting the claim that such a frame is treated as a protocol
violation. -/
theorem c3_counterexample :
    miniParse (stripDataMarker framePing) =
        ParseOutcome.ok ⟨JsonField.str (String.toList "ping"), JsonField.absent⟩ ∧
      processEvent miniParse framePing = ProcOutcome.noEvent :=
  ⟨rfl, rfl⟩

/-- C3 (amended): a frame whose data payload fails JSON parsing raises a
terminal failure carrying the parser's message, and the read loop turns
it into a `Failed` session; but a frame whose payload parses with an
`event` kind other than chunk/error/done is silently ignored (no event,
no failure). -/
theorem c3_amended_protocol_handling (parse : List Char → ParseOutcome)
    (aid : List Char) (msgs : List Message) (frame line : List Char)
    (term : Terminator)
    (hfind : findDataLine frame = some line) :
    (∀ m, parse (stripDataMarker line) = ParseOutcome.fail m →
       processEvent parse frame = ProcOutcome.failure m) ∧
    (∀ m, processEvent parse frame = ProcOutcome.failure m →
       (splitOnDelim (frame ++ delimStr)).dropLast = [frame] →
       runReads parse aid msgs [] [frame ++ delimStr] term =
         (msgs, SessEnd.failed m)) ∧
    (∀ p e, parse (stripDataMarker line) = ParseOutcome.ok p →
       p.event = JsonField.str e →
       e ≠ eventChunkTag → e ≠ eventErrorTag → e ≠ eventDoneTag →
       processEvent parse frame = ProcOutcome.noEvent) := by
  refine ⟨?_, ?_, ?_⟩
  · intro m hm
    simp only [processEvent, hfind, hm]
  · intro m hm hsegs
    apply runReads_cons_of_err
    rw [List.nil_append, hsegs]
    simp only [processSegments, hm]
  · intro p e hp hev h1 h2 h3
    simp only [processEvent, hfind, hp]
    rw [hev,
      if_neg (by rintro ⟨hc, hc2⟩ ; injection hc with hc3 ; exact h1 hc3),
      if_neg (by intro hc ; injection hc with hc3 ; exact h2 hc3),
      if_neg (by intro hc ; injection hc with hc3 ; exact h3 hc3)]

theorem c3_amended_protocol_handling_witness :
    processEvent miniParse frameBadJson =
        ProcOutcome.failure (String.toList "Unexpected token") ∧
      runReads miniParse aidSample [] [] [frameBadJson ++ delimStr] Terminator.eos =
        ([], SessEnd.failed (String.toList "Unexpected token")) := by
  have h := c3_amended_protocol_handling miniParse aidSample [] frameBadJson
    frameBadJson Terminator.eos (by rfl)
  have h1 := h.1 (String.toList "Unexpected token") (by rfl)
  exact ⟨h1, h.2.1 (String.toList "Unexpected token") h1 (by decide)⟩

/-- C4: the reassembler step appends the decoded chunk onto the carryover,
splits on the blank-line delimiter, emits every segment but the last in
order and keeps the last as the new carryover; the split is a genuine
split on two consecutive newlines (joining the segments with the delimiter
reconstructs the input, and no emitted segment still contains the
delimiter); at end-of-stream the carryover is flushed as one final frame
exactly when it contains a non-whitespace character. -/
theorem c4_reassembler_step_spec :
    (∀ buffer chunk : List Char,
       feedChunk buffer chunk =
         ((splitOnDelim (buffer ++ chunk)).dropLast,
          (splitOnDelim (buffer ++ chunk)).getLastD [])) ∧
    (∀ l : List Char, joinWithDelim (splitOnDelim l) = l) ∧
    (∀ l : List Char, ∀ s ∈ splitOnDelim l, hasDelim s = false) ∧
    (∀ buffer : List Char,
       eosFlush buffer = if 0 < (jsTrim buffer).length then [buffer] else []) ∧
    (∀ buffer : List Char,
       0 < (jsTrim buffer).length ↔ ∃ c ∈ buffer, jsWs c = false) :=
  ⟨fun _ _ => rfl, joinWithDelim_splitOnDelim, splitOnDelim_seg_noDelim,
   fun _ => rfl, jsTrim_pos_iff⟩

theorem c4_reassembler_step_spec_witness :
    hasDelim (String.toList "data: a") = false :=
  c4_reassembler_step_spec.2.2.1 sampleStream (String.toList "data: a") (by decide)

/-- C5: partial content is preserved on failure and cancellation: whenever
the session ends `Failed` or `Cancelled`, the (initially empty) assistant
message's content is exactly the concatenation, in order, of the contents
of the chunk events actually applied — accumulated output is never rolled
back by the error path. -/
theorem c5_partial_content_preserved (parse : List Char → ParseOutcome)
    (aid : List Char) (msgs : List Message) (buffer : List Char)
    (chunks : List (List Char)) (term : Terminator) (i : Nat) (m : Message)
    (hend : (∃ ms, (runReadsT parse aid msgs [] buffer chunks term).2.2 =
               SessEnd.failed ms) ∨
            (runReadsT parse aid msgs [] buffer chunks term).2.2 = SessEnd.cancelled)
    (hm : msgs[i]? = some m) (hid : m.id = aid) (hc : m.content = []) :
    ((runReadsT parse aid msgs [] buffer chunks term).1)[i]? =
      some { m with
             content := (runReadsT parse aid msgs [] buffer chunks term).2.1.flatten } := by
  obtain ⟨d, hd1, hd2⟩ := runReadsT_applied parse aid chunks term msgs [] buffer
  rw [List.nil_append] at hd1
  rw [hd2, foldl_appendChunk_getElem, hm, hd1]
  simp only [Option.map_some']
  rw [if_pos hid, hc]
  rw [List.nil_append]

theorem c5_partial_content_preserved_witness :
    ((runReadsT miniParse aidSample [mkAssistantMessage aidSample] [] []
        [frameChunkHi ++ delimStr] Terminator.abort).1)[0]? =
      some { mkAssistantMessage aidSample with
             content := (runReadsT miniParse aidSample [mkAssistantMessage aidSample] [] []
                [frameChunkHi ++ delimStr] Terminator.abort).2.1.flatten } :=
  c5_partial_content_preserved miniParse aidSample [mkAssistantMessage aidSample] []
    [frameChunkHi ++ delimStr] Terminator.abort 0 (mkAssistantMessage aidSample)
    (Or.inr (by rfl)) (by rfl) rfl rfl

/-- C6 (counterexample): an `event: error` frame whose `content` is present
but the empty string is NOT surfaced verbatim: `payload.content || default`
treats the empty string as falsy, so the default message is surfaced
instead of the (empty) content. -/
theorem c6_counterexample :
    miniParse (stripDataMarker frameErrorEmpty) =
        ParseOutcome.ok ⟨JsonField.str eventErrorTag, JsonField.str []⟩ ∧
      processEvent miniParse frameErrorEmpty = ProcOutcome.failure defaultIssueMsg ∧
      defaultIssueMsg ≠ [] :=
  ⟨rfl, rfl, by decide⟩

/-- C6 (amended): an `event: error` frame raises a failure that the read
loop turns into a `Failed` session; the surfaced message is the frame's
content verbatim when that content is a non-empty string, and the default
message when the content is absent or the empty string. -/
theorem c6_error_event_failure (parse : List Char → ParseOutcome)
    (aid : List Char) (msgs : List Message) (frame line : List Char)
    (term : Terminator) (content : JsonField)
    (hfind : findDataLine frame = some line)
    (hparse : parse (stripDataMarker line) =
      ParseOutcome.ok ⟨JsonField.str eventErrorTag, content⟩) :
    processEvent parse frame = ProcOutcome.failure (errContentMsg content) ∧
    (∀ s, content = JsonField.str s → s ≠ [] → errContentMsg content = s) ∧
    (content = JsonField.absent → errContentMsg content = defaultIssueMsg) ∧
    (content = JsonField.str [] → errContentMsg content = defaultIssueMsg) ∧
    ((splitOnDelim (frame ++ delimStr)).dropLast = [frame] →
      runReads parse aid msgs [] [frame ++ delimStr] term =
        (msgs, SessEnd.failed (errContentMsg content))) := by
  have hn : ¬(JsonField.str eventErrorTag = JsonField.str eventChunkTag ∧
      content.isStr = true) :=
    fun hc => absurd hc.1 (by decide)
  have h1 : processEvent parse frame = ProcOutcome.failure (errContentMsg content) := by
    simp only [processEvent, hfind, hparse]
    rw [if_neg hn, if_pos trivial]
  refine ⟨h1, ?_, ?_, ?_, ?_⟩
  · intro s hs hne
    subst hs
    simp only [errContentMsg, if_neg hne]
  · intro hs
    subst hs
    rfl
  · intro hs
    subst hs
    rfl
  · intro hsegs
    apply runReads_cons_of_err
    rw [List.nil_append, hsegs]
    simp only [processSegments, h1]

theorem c6_error_event_failure_witness :
    processEvent miniParse frameErrorOverloaded =
        ProcOutcome.failure (String.toList "overloaded") ∧
      runReads miniParse aidSample [] [] [frameErrorOverloaded ++ delimStr]
          Terminator.eos =
        ([], SessEnd.failed (String.toList "overloaded")) := by
  have h := c6_error_event_failure miniParse aidSample [] frameErrorOverloaded
    frameErrorOverloaded Terminator.eos (JsonField.str (String.toList "overloaded"))
    (by rfl) (by rfl)
  exact ⟨h.1, h.2.2.2.2 (by decide)⟩

/-- C7: a frame whose payload parses with `event: chunk` but whose
`content` is absent or not a string produces no event and raises no
error: `processEvent` returns the no-event outcome and processing such a
frame leaves the transcript, the done signal and the error status of the
segment loop unchanged. -/
theorem c7_chunk_without_string_content_ignored (parse : List Char → ParseOutcome)
    (frame line : List Char) (p : SsePayload)
    (hfind : findDataLine frame = some line)
    (hparse : parse (stripDataMarker line) = ParseOutcome.ok p)
    (hev : p.event = JsonField.str eventChunkTag)
    (hcontent : p.content.isStr = false) :
    processEvent parse frame = ProcOutcome.noEvent ∧
    (∀ aid msgs ds rest, processSegments parse aid msgs ds (frame :: rest) =
        processSegments parse aid msgs ds rest) := by
  have hn1 : ¬(p.event = JsonField.str eventChunkTag ∧ p.content.isStr = true) := by
    rintro ⟨hc, hc2⟩
    rw [hcontent] at hc2
    simp at hc2
  have hn2 : ¬(p.event = JsonField.str eventErrorTag) := by
    rw [hev]
    intro hc
    injection hc with hc3
    exact absurd hc3 (by decide)
  have hn3 : ¬(p.event = JsonField.str eventDoneTag) := by
    rw [hev]
    intro hc
    injection hc with hc3
    exact absurd hc3 (by decide)
  have h1 : processEvent parse frame = ProcOutcome.noEvent := by
    simp only [processEvent, hfind, hparse]
    rw [if_neg hn1, if_neg hn2, if_neg hn3]
  refine ⟨h1, ?_⟩
  intro aid msgs ds rest
  simp only [processSegments, h1]

theorem c7_chunk_without_string_content_ignored_witness :
    processEvent miniParse frameChunkNoContent = ProcOutcome.noEvent ∧
      processSegments miniParse aidSample [mkAssistantMessage aidSample] false
          [frameChunkNoContent] =
        processSegments miniParse aidSample [mkAssistantMessage aidSample] false [] := by
  have h := c7_chunk_without_string_content_ignored miniParse frameChunkNoContent
    frameChunkNoContent ⟨JsonField.str eventChunkTag, JsonField.absent⟩
    (by rfl) (by rfl) rfl rfl
  exact ⟨h.1, h.2 aidSample [mkAssistantMessage aidSample] false []⟩

/-- C8: at most one session is active at a time: while `isStreaming` is
true, `handleSubmit` returns immediately — no user or assistant message is
appended and no new reassembler/reducer session is set up (the submission
produces nothing). -/
theorem c8_no_submission_while_streaming (input : List Char) (msgs : List Message)
    (uid aid : List Char) :
    submitSetup input true msgs uid aid = none := by
  simp [submitSetup]

/-- C9: applying a chunk mutates only the active assistant message: the
transcript keeps its length and order, every message at every position
keeps its id, role and context flag, a message whose id differs from the
active id is completely unchanged, and the active message's content is
only extended by appending the chunk at the end. -/
theorem c9_appendChunk_targets_only_active (aid v : List Char)
    (msgs : List Message) (i : Nat) (m m' : Message)
    (h1 : msgs[i]? = some m)
    (h2 : (appendChunk aid v msgs)[i]? = some m') :
    (appendChunk aid v msgs).length = msgs.length ∧
    m'.id = m.id ∧ m'.role = m.role ∧ m'.skipContext = m.skipContext ∧
    (m.id ≠ aid → m' = m) ∧
    (m.id = aid → m'.content = m.content ++ v) := by
  have hlen : (appendChunk aid v msgs).length = msgs.length := by
    simp [appendChunk]
  have hm' : m' = if m.id = aid then { m with content := m.content ++ v } else m := by
    have hmap := List.getElem?_map (fun mm : Message =>
      if mm.id = aid then { mm with content := mm.content ++ v } else mm) msgs i
    rw [show appendChunk aid v msgs = msgs.map (fun mm =>
      if mm.id = aid then { mm with content := mm.content ++ v } else mm) from rfl,
      hmap, h1] at h2
    simp only [Option.map_some'] at h2
    injection h2 with h3
    exact h3.symm
  subst hm'
  refine ⟨hlen, ?_, ?_, ?_, ?_, ?_⟩ <;> by_cases hid : m.id = aid <;> simp [hid]

theorem c9_appendChunk_targets_only_active_witness :
    (appendChunk aidSample ['!'] [mkAssistantMessage aidSample]).length =
        ([mkAssistantMessage aidSample] : List Message).length ∧
      appendedSample.id = (mkAssistantMessage aidSample).id ∧
      appendedSample.role = (mkAssistantMessage aidSample).role ∧
      appendedSample.skipContext = (mkAssistantMessage aidSample).skipContext ∧
      ((mkAssistantMessage aidSample).id ≠ aidSample →
        appendedSample = mkAssistantMessage aidSample) ∧
      ((mkAssistantMessage aidSample).id = aidSample →
        appendedSample.content = (mkAssistantMessage aidSample).content ++ ['!']) :=
  c9_appendChunk_targets_only_active aidSample ['!'] [mkAssistantMessage aidSample] 0
    (mkAssistantMessage aidSample) appendedSample (by rfl) (by rfl)

/-- C10: a submission whose input is empty or whitespace-only is a no-op;
an accepted submission appends a user message carrying the trimmed input
(and a fresh empty assistant message), and the request body is built from
the prior transcript plus the new user message with every context-exempt
message filtered out — in particular, from the initial transcript the
greeting is excluded and the body holds exactly the trimmed user turn. -/
theorem c10_submission_gate_and_payload :
    (∀ (input : List Char) (strm : Bool) (msgs : List Message) (uid aid : List Char),
       input.all jsWs = true → submitSetup input strm msgs uid aid = none) ∧
    (∀ (input : List Char) (msgs : List Message) (uid aid : List Char)
       (r : SubmitResult),
       submitSetup input false msgs uid aid = some r →
       r.newMessages =
           msgs ++ [mkUserMessage uid (jsTrim input), mkAssistantMessage aid] ∧
       r.payload = ((msgs ++ [mkUserMessage uid (jsTrim input)]).filter
           fun m => !m.skipContext).map fun m => (m.role, m.content)) ∧
    (∀ (input : List Char) (uid aid : List Char) (r : SubmitResult),
       submitSetup input false initialMessages uid aid = some r →
       r.payload = [(Role.user, jsTrim input)]) := by
  refine ⟨?_, ?_, ?_⟩
  · intro input strm msgs uid aid hall
    have hnil : jsTrim input = [] := (jsTrim_eq_nil_iff input).mpr hall
    simp [submitSetup, hnil]
  · intro input msgs uid aid r hr
    exact submitSetup_accepted input msgs uid aid r hr
  · intro input uid aid r hr
    rw [(submitSetup_accepted input initialMessages uid aid r hr).2]
    rfl

theorem c10_submission_gate_and_payload_witness :
    submitSetup (String.toList "   ") false initialMessages
        (String.toList "u1") aidSample = none ∧
      sampleSubmit.payload = [(Role.user, String.toList "hi")] :=
  ⟨c10_submission_gate_and_payload.1 (String.toList "   ") false initialMessages
      (String.toList "u1") aidSample (by decide),
   by
    have h := c10_submission_gate_and_payload.2.2 (String.toList " hi ")
      (String.toList "u1") aidSample sampleSubmit (by rfl)
    rw [h]
    rfl⟩
